import Mathlib

/-!
Verification of the diagnostic-driven repair scripts of the Firsttry
repository (`anchor_fix.py`, `remove_ts_expect.py`, `mech_fix.py`,
`fix_tsx.py`).  The Python sources are shallowly embedded: file contents
are lists of line strings (or raw character lists where the source works
on whole text), the file system is an association list or a lookup
function, and each loop of the scripts becomes a structurally recursive
Lean function.  Strings are modelled over `List Char`; Python's
`a in b` substring test, `str.replace`, `str.splitlines(True)` (for
newline-terminated text) and `pathlib` suffix handling are reproduced by
executable definitions below.
-/

/-- Substring test: Python `pat in s`, scanning for `pat` as a prefix of
some tail of `s`. -/
def containsSub (pat : List Char) : List Char → Bool
  | [] => pat.isEmpty
  | c :: rest => pat.isPrefixOf (c :: rest) || containsSub pat rest

/-- Substring test on `String`s, Python `pat in s`. -/
def strContains (s pat : String) : Bool := containsSub pat.data s.data

/-- Suffix test on character lists (Python `s.endswith(suf)`). -/
def endsWithL (s suf : List Char) : Bool := suf.isSuffixOf s

/-- Python `s[:-n]` for `n ≥ 1`: drop the last `n` characters. -/
def dropRightL (s : List Char) (n : Nat) : List Char := s.take (s.length - n)

/-- Split a character list on a separator, Python `str.split(sep)` for a
one-character separator. -/
def splitOnChar (sep : Char) : List Char → List (List Char)
  | [] => [[]]
  | c :: rest =>
    if c = sep then [] :: splitOnChar sep rest
    else match splitOnChar sep rest with
      | [] => [[c]]
      | l :: ls => (c :: l) :: ls

/-- Length bound for the executable prefix test (stated as a definition
so that `replaceAll` below can use it in its termination argument). -/
def length_le_of_isPrefixOf :
    ∀ (p s : List Char), p.isPrefixOf s = true → p.length ≤ s.length := by
  intro p
  induction p with
  | nil => intro s _; simp
  | cons a as ih =>
    intro s hp
    cases s with
    | nil => simp [List.isPrefixOf] at hp
    | cons b bs =>
      simp only [List.isPrefixOf, Bool.and_eq_true] at hp
      have := ih bs hp.2
      simp only [List.length_cons]
      omega

/-- Python `str.replace(pat, rep)`: scan left to right, replacing each
non-overlapping occurrence of `pat` by `rep`.  The empty pattern never
arises in the scripts (patterns are quoted specifiers); for it this
model returns the input unchanged. -/
def replaceAll (pat rep : List Char) (s : List Char) : List Char :=
  if h : pat.isPrefixOf s = true ∧ pat ≠ [] then
    rep ++ replaceAll pat rep (s.drop pat.length)
  else
    match s with
    | [] => []
    | c :: rest => c :: replaceAll pat rep rest
termination_by s.length
decreasing_by
  · have hle : pat.length ≤ s.length := length_le_of_isPrefixOf pat s h.1
    have hpos : 0 < pat.length := by
      cases hq : pat with
      | nil => exact absurd hq h.2
      | cons a as => simp
    have hspos : 0 < s.length := by omega
    simp only [List.length_drop]
    omega
  · simp

/-- Python `'@ts-expect-error' in line`, the directive guard used by both
suppression-removal loops. -/
def hasDirective (l : String) : Bool := containsSub "@ts-expect-error".data l.data

/-- Python `sorted(set(lines), reverse=True)` from `remove_ts_expect.py`:
deduplicate, then sort in decreasing order. -/
def sortDesc (l : List Nat) : List Nat :=
  List.insertionSort (fun a b => b ≤ a) l.dedup

/-- One iteration of the per-file removal loop of `remove_ts_expect.py`
(lines 31-36): `idx = ln - 1; if 0 <= idx < len(txt) and
'@ts-expect-error' in txt[idx]: txt.pop(idx)`. -/
def removeStep (txt : List String) (ln : Nat) : List String :=
  if 1 ≤ ln ∧ ln - 1 < txt.length ∧ hasDirective (txt.getD (ln - 1) "") = true then
    txt.eraseIdx (ln - 1)
  else txt

/-- Per-file body of `remove_ts_expect.py` (lines 28-36): process the
deduplicated anchor line numbers of one file in decreasing order,
removing each anchored line that still carries the directive. -/
def removeByFile (anchors : List Nat) (lines : List String) : List String :=
  (sortDesc anchors).foldl removeStep lines

/-- Declarative companion of `removeByFile`: walk the line list with a
1-based counter `k`, dropping exactly the anchored lines that carry the
directive.  `removeByFile` is proved to agree with it. -/
def removeSpec (anchors : List Nat) (k : Nat) (lines : List String) : List String :=
  match lines with
  | [] => []
  | l :: rest =>
    if k ∈ anchors ∧ hasDirective l = true then removeSpec anchors (k + 1) rest
    else l :: removeSpec anchors (k + 1) rest

instance : IsTotal Nat (fun a b => b ≤ a) := ⟨fun a b => le_total b a⟩

instance : IsTrans Nat (fun a b => b ≤ a) := ⟨fun _ _ _ h1 h2 => le_trans h2 h1⟩

/-- File system for the suppression-removal run: an association list
from file names to file contents, a content being the list of lines
(`read_text().splitlines(True)` / `write_text(''.join(...))` round-trip
is modelled at the line level). -/
abbrev FsT : Type := List (String × List String)

/-- Python `p.write_text(...)` for an existing file: replace the stored
content of `file`. -/
def fsWrite (fs : FsT) (file : String) (c : List String) : FsT :=
  List.map (fun e => if e.1 == file then (file, c) else e) fs

/-- Python `p.exists()` / `p.read_text()` combined: look the file up. -/
def fsRead (fs : FsT) (file : String) : Option (List String) :=
  List.lookup file fs

/-- Loop body of anchor_fix.py section 4A (lines 66-75): for each anchor
`(file, lineno)` in appearance order, re-read the file, and pop the line
at `lineno - 1` if it is in range and still carries the directive.
`removed` accumulates the `(file, lineno)` pairs logged as removed. -/
def anchorFixGo : List (String × Nat) → FsT → List (String × Nat) → FsT × List (String × Nat)
  | [], fs, removed => (fs, removed)
  | (file, lineno) :: rest, fs, removed =>
    match fsRead fs file with
    | none => anchorFixGo rest fs removed
    | some lines =>
      if 1 ≤ lineno ∧ lineno - 1 < lines.length ∧
          hasDirective (lines.getD (lineno - 1) "") = true then
        anchorFixGo rest (fsWrite fs file (lines.eraseIdx (lineno - 1)))
          (removed ++ [(file, lineno)])
      else anchorFixGo rest fs removed

/-- Section 4A of anchor_fix.py (lines 64-75): cap the parsed TS2578
anchors at the first 20 (`hits_2578 = hits_2578[:20]`), then run the
removal loop over them in appearance order. -/
def anchorFix2578 (hits : List (String × Nat)) (fs : FsT) : FsT × List (String × Nat) :=
  anchorFixGo (hits.take 20) fs []

/-- Word characters of the regex `\b` boundary (ASCII `\w`). -/
def wordChar (c : Char) : Bool := c.isAlphanum || c == '_'

/-- Auxiliary scan for `\bw\b`: `prev` is the character before the
current position (none at the start of the text). -/
def wordOccursAux (w : List Char) (prev : Option Char) : List Char → Bool
  | [] => false
  | c :: rest =>
    (w.isPrefixOf (c :: rest) &&
      (match prev with | none => true | some p => !wordChar p) &&
      (match (c :: rest).drop w.length with | [] => true | d :: _ => !wordChar d)) ||
    wordOccursAux w (some c) rest

/-- Occurrence of word `w` with `\b` boundaries on both sides, as in the
regex fragments `\bdocument\b` and `\bwindow\b`. -/
def wordOccurs (w s : List Char) : Bool := wordOccursAux w none s

/-- Python `re.search(r'declare global|interface Window|\bdocument\b|\bwindow\b|namespace JSX|HTMLElement|React\.', s)`
of anchor_fix.py line 32, as a Boolean: does any branch of the
alternation occur? -/
def findForbidden (s : String) : Bool :=
  containsSub "declare global".data s.data ||
  containsSub "interface Window".data s.data ||
  wordOccurs "document".data s.data ||
  wordOccurs "window".data s.data ||
  containsSub "namespace JSX".data s.data ||
  containsSub "HTMLElement".data s.data ||
  containsSub "React.".data s.data

/-- Matched branches of the forbidden alternation, standing in for the
offending excerpts of audit lines 36-37 (the 60-character context
windows that `finditer` logs around each match are abstracted to the
matched pattern itself). -/
def offendingPats (s : String) : List String :=
  (List.filter (fun p => containsSub p.data s.data)
     ["declare global", "interface Window", "namespace JSX", "HTMLElement", "React."]) ++
  (List.filter (fun w => wordOccurs w.data s.data) ["document", "window"])

/-- Whitespace characters of the regex `\s` (the newline case is handled
by splitting first). -/
def spaceChar (c : Char) : Bool :=
  c == ' ' || c == '\t' || c == '\x0d' || c == '\x0c' || c == '\x0b'

/-- Python `re.search(r'^\s*declare module ', s, re.M)` of anchor_fix.py
line 40: some line of `s`, after leading whitespace, starts with
`declare module `. -/
def hasModuleDecl (s : String) : Bool :=
  List.any (splitOnChar '\n' s.data)
    (fun l => "declare module ".data.isPrefixOf (l.dropWhile (fun c => spaceChar c)))

/-- Outcome of the argument check and shim-guard stage of anchor_fix.py
(lines 9-45): the exit code if the run aborts, the audit lines written
about the shim, and whether the run goes on to the checker invocation
and mutation stages. -/
structure GuardTrace where
  exitCode : Option Nat
  shimAudit : List String
  proceeds : Bool
deriving DecidableEq, Repr

/-- Argument check and shim guard of anchor_fix.py lines 9-45: exit 1 on
a missing output-directory argument; when the shim file exists, exit 2
(after auditing the offending excerpts) if it contains forbidden
content, exit 3 (after auditing the head of the shim) if it lacks a
top-level module declaration; otherwise proceed. -/
def guardRun (argc : Nat) (shimExists : Bool) (shim : String) : GuardTrace :=
  if argc < 2 then { exitCode := some 1, shimAudit := [], proceeds := false }
  else if shimExists then
    if findForbidden shim then
      { exitCode := some 2
        shimAudit := "ERROR: forbidden content in shim" :: offendingPats shim
        proceeds := false }
    else if hasModuleDecl shim = false then
      { exitCode := some 3
        shimAudit := ["ERROR: shim does not contain module declarations",
                      String.mk (shim.data.take 200)]
        proceeds := false }
    else { exitCode := none, shimAudit := [], proceeds := true }
  else { exitCode := none, shimAudit := [], proceeds := true }

/-- Path components of a POSIX path string: split on `/`, dropping empty
segments and `.` segments, as `pathlib.Path` normalisation does.  Paths
in the import-resolution model are represented by their component
lists. -/
def pparts (s : String) : List String :=
  List.filter (fun c => !(c == "") && !(c == "."))
    (List.map String.mk (splitOnChar '/' s.data))

/-- Python `PurePath.suffix` of a file name: the part from the last dot,
provided that dot is neither the first nor the last character. -/
def pySuffix (n : String) : String :=
  match List.findIdx? (fun c => c == '.') n.data.reverse with
  | none => ""
  | some j =>
    if 0 < j ∧ j + 1 < n.data.length then String.mk (n.data.drop (n.data.length - (j + 1)))
    else ""

/-- Python `with_suffix` on a file name: drop the current suffix (if
any) and append `suf`. -/
def setSuffix (n : String) (suf : String) : String :=
  String.mk (dropRightL n.data (pySuffix n).data.length ++ suf.data)

/-- Python `Path.with_suffix` on a component list: rewrite the suffix of
the final component.  (The scripts never reach the empty-component
case: eligible specifiers always contribute at least one component.) -/
def withSuffix : List String → String → List String
  | [], _ => []
  | [n], suf => [setSuffix n suf]
  | a :: b :: r, suf => a :: withSuffix (b :: r) suf

/-- Python `cand / child`. -/
def childPath (p : List String) (c : String) : List String := p ++ [c]

/-- Probe list of anchor_fix.py line 98, in source order:
`[cand.with_suffix('.ts'), cand.with_suffix('.tsx'), cand / 'index.ts', cand / 'index.tsx']`. -/
def probeOptions (cand : List String) : List (List String) :=
  [withSuffix cand ".ts", withSuffix cand ".tsx",
   childPath cand "index.ts", childPath cand "index.tsx"]

/-- Probe loop of anchor_fix.py lines 99-103: the first existing
candidate wins (`exists = o; break`), none if no probe exists.  `ex` is
the fixed directory listing, as a predicate on candidate paths. -/
def resolveImport (ex : List String → Bool) (cand : List String) : Option (List String) :=
  List.find? ex (probeOptions cand)

/-- Python `str(rel).replace('\\', '/')` of anchor_fix.py line 106. -/
def bsToSlash (s : String) : String :=
  String.mk (s.data.map (fun c => if c == '\\' then '/' else c))

/-- Extension-stripping loop of anchor_fix.py lines 107-109:
`for ext in ['.ts','.tsx']: if rel_no_ext.endswith(ext): rel_no_ext = rel_no_ext[:-len(ext)]`. -/
def stripExtsSeq (s : String) : String :=
  List.foldl
    (fun t (e : String) =>
      if endsWithL t.data e.data then String.mk (dropRightL t.data e.data.length) else t)
    s [".ts", ".tsx"]

/-- Trailing `/index` elision of anchor_fix.py lines 110-111. -/
def stripIndexSeg (s : String) : String :=
  if endsWithL s.data "/index".data then String.mk (dropRightL s.data 6) else s

/-- Relative-marker re-prefixing of anchor_fix.py line 112:
`'./' + s if not s.startswith('.') else s`. -/
def addDotMark (s : String) : String :=
  if ".".data.isPrefixOf s.data then s else "./" ++ s

/-- Full specifier normalisation of anchor_fix.py lines 106-112, taking
the resolved candidate path re-expressed relative to the importing
directory (as a string) to the rewritten specifier. -/
def newMod (rel : String) : String :=
  addDotMark (stripIndexSeg (stripExtsSeq (bsToSlash rel)))

/-- Claim-side single-strip normalisation: the same pipeline with `a
trailing .ts or .tsx extension` stripped once (a string cannot end with
both), following the claim's words. -/
def stripOneExt (s : String) : String :=
  if endsWithL s.data ".ts".data then String.mk (dropRightL s.data 3)
  else if endsWithL s.data ".tsx".data then String.mk (dropRightL s.data 4)
  else s

/-- Claim-side rewritten specifier: relative path with one trailing
extension stripped, a trailing `/index` segment removed, and a leading
`./` added when no relative marker is present. -/
def claimNewMod (rel : String) : String :=
  addDotMark (stripIndexSeg (stripOneExt (bsToSlash rel)))

/-- Amended claim-side strip: check `.ts` first, then `.tsx` on the
result, as the source loop does. -/
def stripTsThenTsx (s : String) : String :=
  let t := if endsWithL s.data ".ts".data then String.mk (dropRightL s.data 3) else s
  if endsWithL t.data ".tsx".data then String.mk (dropRightL t.data 4) else t

/-- Quoted specifier with single quotes, Python `f"'{mod}'"`. -/
def quoteS (m : List Char) : List Char := '\x27' :: (m ++ ['\x27'])

/-- Quoted specifier with double quotes, Python `f'"{mod}"'`. -/
def quoteD (m : List Char) : List Char := '"' :: (m ++ ['"'])

/-- Import-specifier rewrite of anchor_fix.py line 114: replace the old
quoted specifier by the new one, single-quote style first, then
double-quote style. -/
def applyRewrite (oldm newm : List Char) (txt : List Char) : List Char :=
  replaceAll (quoteD oldm) (quoteD newm) (replaceAll (quoteS oldm) (quoteS newm) txt)

/-- Python `'/'.join`-style rendering of a component list, as
`str(rel)` produces for a relative `PurePosixPath`. -/
def joinSlash : List String → String
  | [] => ""
  | [a] => a
  | a :: b :: r => a ++ "/" ++ joinSlash (b :: r)

/-- Relative-marker test of anchor_fix.py line 89: `mod.startswith('.')`. -/
def dotStart (m : String) : Bool := ".".data.isPrefixOf m.data

/-- Classification loop of anchor_fix.py section 4B (lines 85-119).
`count` is the running count of relative hits; a non-relative specifier
is skipped with reason `non-relative` before the count is touched; the
16th relative hit breaks the loop (`count += 1; if count > 15: break`).
For an eligible hit the candidate probes run against the directory
listing `ex`; on resolution the file text (given by the total content
map `ftext`; diagnostics only name existing files) is rewritten and the
hit is logged as fixed when the text changed, otherwise the hit is
skipped with reason `target-missing`.  Returns the written contents, the
fixed log and the skipped log. -/
def importFixGo (ex : List String → Bool) (ftext : String → String) :
    Nat → List (String × String) →
    List (String × String) × List (String × String × String) × List (String × String × String)
  | _, [] => ([], [], [])
  | count, (file, mod) :: rest =>
    if dotStart mod = false then
      let (w, f, s) := importFixGo ex ftext count rest
      (w, f, (file, mod, "non-relative") :: s)
    else if 15 < count + 1 then ([], [], [])
    else
      let base := (pparts file).dropLast
      match List.find? (fun o => ex (base ++ o)) (probeOptions (pparts mod)) with
      | some o =>
        let nm := newMod (joinSlash o)
        let ptext := (ftext file).data
        let ptext2 := applyRewrite mod.data nm.data ptext
        if ptext2 ≠ ptext then
          let (w, f, s) := importFixGo ex ftext (count + 1) rest
          ((file, String.mk ptext2) :: w, (file, mod, nm) :: f, s)
        else
          let (w, f, s) := importFixGo ex ftext (count + 1) rest
          (w, f, s)
      | none =>
        let (w, f, s) := importFixGo ex ftext (count + 1) rest
        (w, f, (file, mod, "target-missing") :: s)

/-- Section 4B of anchor_fix.py, started with `count = 0`. -/
def importFix (ex : List String → Bool) (ftext : String → String)
    (hits : List (String × String)) :
    List (String × String) × List (String × String × String) × List (String × String × String) :=
  importFixGo ex ftext 0 hits

/-- Prefix of the 4B hit sequence that the loop examines before the cap
break fires: every non-relative hit passes through without consuming
the cap; the scan stops just before the relative hit that exhausts the
budget `n`. -/
def scanUntilCap : Nat → List (String × String) → List (String × String)
  | _, [] => []
  | n, (f, m) :: r =>
    if dotStart m = false then (f, m) :: scanUntilCap n r
    else match n with
      | 0 => []
      | n1 + 1 => (f, m) :: scanUntilCap n1 r

/-- Python `str.splitlines(True)` for newline-terminated text: split
after each `'\n'`, keeping the newline on each line. -/
def splitKE : List Char → List (List Char)
  | [] => []
  | c :: rest =>
    if c = '\n' then [c] :: splitKE rest
    else match splitKE rest with
      | [] => [[c]]
      | l :: ls => (c :: l) :: ls

/-- Python `l.startswith('import ')` of mech_fix.py line 50. -/
def isImportLine (l : List Char) : Bool := "import ".data.isPrefixOf l

/-- Scan of mech_fix.py lines 48-51: `last_imp = -1; for i, l in
enumerate(lines[:80]): if l.startswith('import '): last_imp = i`,
with `-1` modelled as `none`. -/
def lastImport (lines : List (List Char)) : Option Nat :=
  List.foldl (fun acc il => if isImportLine il.2 then some il.1 else acc) none
    (List.enum (lines.take 80))

/-- Fold of `lastImport` restarted at counter `n` with accumulator
`acc`; `lastImport lines = lastImpFrom 0 none (lines.take 80)`. -/
def lastImpFrom (n : Nat) (acc : Option Nat) (ls : List (List Char)) : Option Nat :=
  List.foldl (fun a il => if isImportLine il.2 then some il.1 else a) acc (List.enumFrom n ls)

/-- Function `ensure_import` of mech_fix.py lines 44-56: return the text
unchanged when the import line already occurs anywhere in it; otherwise
insert `imp ++ '\n'` right after the last import line among the first 80
lines, or at the very top when there is none. -/
def ensureImport (txt imp : List Char) : List Char :=
  if containsSub imp txt then txt
  else
    let lines := splitKE txt
    let pos := match lastImport lines with
      | some k => k + 1
      | none => 0
    List.flatten (List.insertIdx pos (imp ++ ['\n']) lines)

/-- The two import-prepend blocks of fix_tsx.py (lines 18-26): prepend a
React default import when the text mentions neither `import React` nor a
react import, then prepend a `view` import when the text uses the JSX
factory but carries no `@forge/ui` import.  Both insert at the very top
of the file. -/
def fixTsx (txt : String) : String :=
  let t1 :=
    if !strContains txt "import React" && !strContains txt "from \"react\"" &&
        !strContains txt "from \x27react\x27" then
      "import React from \"react\";\n" ++ txt
    else txt
  if (strContains t1 "view(" || strContains t1 "<View" || strContains t1 "<view") &&
      (!strContains t1 "from \"@forge/ui\"" && !strContains t1 "from \x27@forge/ui\x27") then
    "import \x7b view \x7d from \"@forge/ui\";\n" ++ t1
  else t1

/-- Anchors entirely below the cursor never fire. -/
theorem removeSpec_all_lt (A : List Nat) :
    ∀ (lines : List String) (k : Nat), (∀ a ∈ A, a < k) →
      removeSpec A k lines = lines := by
  intro lines
  induction lines with
  | nil => intro k _; rfl
  | cons l tl ih =>
    intro k hk
    have hc : ¬(k ∈ A ∧ hasDirective l = true) := by
      rintro ⟨hm, _⟩
      exact absurd (hk k hm) (lt_irrefl k)
    simp only [removeSpec, if_neg hc]
    rw [ih (k + 1) (fun a ha => Nat.lt_succ_of_lt (hk a ha))]

/-- Erasing the line of the largest anchor first commutes with the
declarative walk: the removal at `ln` may be folded into the anchor
list, provided the remaining anchors all lie below `ln`. -/
theorem removeSpec_erase (ln : Nat) (rest : List Nat) :
    ∀ (lines : List String) (k : Nat), k ≤ ln → ln - k < lines.length →
      hasDirective (lines.getD (ln - k) "") = true → (∀ r ∈ rest, r < ln) →
      removeSpec rest k (lines.eraseIdx (ln - k)) = removeSpec (ln :: rest) k lines := by
  intro lines
  induction lines with
  | nil => intro k _ h _ _; simp at h
  | cons l tl ih =>
    intro k hkle hlt hdir hrest
    by_cases hk : k = ln
    · subst hk
      have h0 : k - k = 0 := by omega
      rw [h0] at hlt hdir ⊢
      rw [List.eraseIdx_cons_zero]
      rw [List.getD_cons_zero] at hdir
      have hcond : k ∈ k :: rest ∧ hasDirective l = true := ⟨List.mem_cons_self k rest, hdir⟩
      simp only [removeSpec, if_pos hcond]
      rw [removeSpec_all_lt rest tl k (fun a ha => hrest a ha),
          removeSpec_all_lt (k :: rest) tl (k + 1) ?_]
      intro a ha
      rcases List.mem_cons.mp ha with h | h
      · omega
      · have := hrest a h; omega
    · have hklt : k < ln := lt_of_le_of_ne hkle hk
      have hm : ln - k = (ln - (k + 1)) + 1 := by omega
      rw [hm] at hlt hdir ⊢
      rw [List.eraseIdx_cons_succ]
      rw [List.getD_cons_succ] at hdir
      have hmem : (k ∈ ln :: rest) ↔ (k ∈ rest) := by
        rw [List.mem_cons]
        exact or_iff_right hk
      have hlen : ln - (k + 1) < tl.length := by
        simp only [List.length_cons] at hlt; omega
      by_cases hc : k ∈ rest ∧ hasDirective l = true
      · have hc2 : k ∈ ln :: rest ∧ hasDirective l = true := ⟨hmem.mpr hc.1, hc.2⟩
        simp only [removeSpec, if_pos hc, if_pos hc2]
        exact ih (k + 1) (by omega) hlen hdir hrest
      · have hc2 : ¬(k ∈ ln :: rest ∧ hasDirective l = true) := by
          rintro ⟨h1, h2⟩
          exact hc ⟨hmem.mp h1, h2⟩
        simp only [removeSpec, if_neg hc, if_neg hc2]
        rw [ih (k + 1) (by omega) hlen hdir hrest]

/-- An anchor whose guard fails (cursor already past it, index out of
range, or no directive on its line) can be dropped from the anchor
list. -/
theorem removeSpec_skip (ln : Nat) (rest : List Nat) :
    ∀ (lines : List String) (k : Nat),
      (ln < k ∨ lines.length ≤ ln - k ∨ hasDirective (lines.getD (ln - k) "") = false) →
      removeSpec (ln :: rest) k lines = removeSpec rest k lines := by
  intro lines
  induction lines with
  | nil => intro k _; rfl
  | cons l tl ih =>
    intro k hdis
    by_cases hk : k = ln
    · subst hk
      have hdirf : hasDirective l = false := by
        rcases hdis with h | h | h
        · omega
        · simp at h
        · have h0 : k - k = 0 := by omega
          rw [h0, List.getD_cons_zero] at h
          exact h
      have hc1 : ¬(k ∈ k :: rest ∧ hasDirective l = true) := by
        rintro ⟨_, h2⟩; rw [hdirf] at h2; exact Bool.false_ne_true h2
      have hc2 : ¬(k ∈ rest ∧ hasDirective l = true) := by
        rintro ⟨_, h2⟩; rw [hdirf] at h2; exact Bool.false_ne_true h2
      simp only [removeSpec, if_neg hc1, if_neg hc2]
      rw [ih (k + 1) (Or.inl (by omega))]
    · have hmem : (k ∈ ln :: rest) ↔ (k ∈ rest) := by
        rw [List.mem_cons]; exact or_iff_right hk
      have hdis2 : ln < k + 1 ∨ tl.length ≤ ln - (k + 1) ∨
          hasDirective (tl.getD (ln - (k + 1)) "") = false := by
        rcases hdis with h | h | h
        · exact Or.inl (by omega)
        · by_cases hkl : ln < k
          · exact Or.inl (by omega)
          · refine Or.inr (Or.inl ?_)
            simp only [List.length_cons] at h
            omega
        · by_cases hkl : ln < k
          · exact Or.inl (by omega)
          · have hgt : k < ln := by omega
            have hm : ln - k = (ln - (k + 1)) + 1 := by omega
            rw [hm, List.getD_cons_succ] at h
            exact Or.inr (Or.inr h)
      by_cases hc : k ∈ rest ∧ hasDirective l = true
      · have hc2 : k ∈ ln :: rest ∧ hasDirective l = true := ⟨hmem.mpr hc.1, hc.2⟩
        simp only [removeSpec, if_pos hc, if_pos hc2]
        exact ih (k + 1) hdis2
      · have hc2 : ¬(k ∈ ln :: rest ∧ hasDirective l = true) := by
          rintro ⟨h1, h2⟩; exact hc ⟨hmem.mp h1, h2⟩
        simp only [removeSpec, if_neg hc, if_neg hc2]
        rw [ih (k + 1) hdis2]

/-- The imperative fold over a strictly decreasing anchor list computes
the declarative walk: with decreasing processing order, each erasure
leaves the indices of the still-unprocessed (smaller) anchors intact. -/
theorem foldl_removeStep_eq (D : List Nat) :
    ∀ lines, List.Pairwise (fun a b => b < a) D →
      D.foldl removeStep lines = removeSpec D 1 lines := by
  induction D with
  | nil =>
    intro lines _
    rw [List.foldl_nil, removeSpec_all_lt [] lines 1 (by intro a ha; cases ha)]
  | cons ln rest ih =>
    intro lines hp
    rw [List.pairwise_cons] at hp
    rw [List.foldl_cons, ih (removeStep lines ln) hp.2]
    by_cases hg : 1 ≤ ln ∧ ln - 1 < lines.length ∧ hasDirective (lines.getD (ln - 1) "") = true
    · rw [removeStep, if_pos hg]
      exact removeSpec_erase ln rest lines 1 hg.1 hg.2.1 hg.2.2 hp.1
    · rw [removeStep, if_neg hg]
      refine (removeSpec_skip ln rest lines 1 ?_).symm
      by_cases h1 : 1 ≤ ln
      · by_cases h2 : ln - 1 < lines.length
        · refine Or.inr (Or.inr ?_)
          rcases Bool.eq_false_or_eq_true (hasDirective (lines.getD (ln - 1) "")) with h | h
          · exact absurd ⟨h1, h2, h⟩ hg
          · exact h
        · exact Or.inr (Or.inl (by omega))
      · exact Or.inl (by omega)

/-- The descending sort of the deduplicated anchors is strictly
decreasing. -/
theorem sortDesc_pairwise (l : List Nat) :
    List.Pairwise (fun a b => b < a) (sortDesc l) := by
  have hs : List.Sorted (fun a b : Nat => b ≤ a) (sortDesc l) :=
    List.sorted_insertionSort _ _
  have hn : (sortDesc l).Nodup :=
    ((List.perm_insertionSort _ l.dedup).nodup_iff).mpr (List.nodup_dedup l)
  have hand := List.Pairwise.and hs hn
  exact hand.imp (fun h => lt_of_le_of_ne h.1 (fun e => h.2 e.symm))

/-- Membership in the sorted deduplicated anchors matches membership in
the raw anchors. -/
theorem mem_sortDesc (x : Nat) (l : List Nat) : x ∈ sortDesc l ↔ x ∈ l :=
  ((List.perm_insertionSort _ l.dedup).mem_iff).trans List.mem_dedup

/-- The declarative walk only looks at anchor membership. -/
theorem removeSpec_congr (A B : List Nat) (hAB : ∀ x, x ∈ A ↔ x ∈ B) :
    ∀ (lines : List String) (k : Nat), removeSpec A k lines = removeSpec B k lines := by
  intro lines
  induction lines with
  | nil => intro k; rfl
  | cons l tl ih =>
    intro k
    by_cases hc : k ∈ A ∧ hasDirective l = true
    · have hc2 : k ∈ B ∧ hasDirective l = true := ⟨(hAB k).mp hc.1, hc.2⟩
      simp only [removeSpec, if_pos hc, if_pos hc2]
      exact ih (k + 1)
    · have hc2 : ¬(k ∈ B ∧ hasDirective l = true) := by
        rintro ⟨h1, h2⟩; exact hc ⟨(hAB k).mpr h1, h2⟩
      simp only [removeSpec, if_neg hc, if_neg hc2]
      rw [ih (k + 1)]

/-- The per-file pass of remove_ts_expect.py equals the declarative
walk over the raw anchor list. -/
theorem removeByFile_eq_removeSpec (anchors : List Nat) (lines : List String) :
    removeByFile anchors lines = removeSpec anchors 1 lines := by
  rw [removeByFile, foldl_removeStep_eq (sortDesc anchors) lines (sortDesc_pairwise anchors)]
  exact removeSpec_congr _ _ (fun x => mem_sortDesc x anchors) lines 1

/-- When every directive-bearing line is anchored, the declarative walk
leaves no directive-bearing line behind. -/
theorem removeSpec_no_directive (A : List Nat) :
    ∀ (lines : List String) (k : Nat),
      (∀ i, i < lines.length → hasDirective (lines.getD i "") = true → (k + i) ∈ A) →
      ∀ l ∈ removeSpec A k lines, hasDirective l = false := by
  intro lines
  induction lines with
  | nil => intro k _ l hl; cases hl
  | cons x tl ih =>
    intro k hA l hl
    have htl : ∀ i, i < tl.length → hasDirective (tl.getD i "") = true → (k + 1 + i) ∈ A := by
      intro i hi hd
      have := hA (i + 1) (by simp only [List.length_cons]; omega)
        (by rw [List.getD_cons_succ]; exact hd)
      have he : k + (i + 1) = k + 1 + i := by omega
      rw [he] at this
      exact this
    by_cases hc : k ∈ A ∧ hasDirective x = true
    · rw [removeSpec, if_pos hc] at hl
      exact ih (k + 1) htl l hl
    · rw [removeSpec, if_neg hc] at hl
      rcases List.mem_cons.mp hl with h | h
      · subst h
        rcases Bool.eq_false_or_eq_true (hasDirective l) with ht | hf
        · have hmem := hA 0 (by simp) (by rw [List.getD_cons_zero]; exact ht)
          rw [Nat.add_zero] at hmem
          exact absurd ⟨hmem, ht⟩ hc
        · exact hf
      · exact ih (k + 1) htl l h

/-- The declarative walk is the identity on directive-free content. -/
theorem removeSpec_id_of_clean (A : List Nat) :
    ∀ (lines : List String) (k : Nat), (∀ l ∈ lines, hasDirective l = false) →
      removeSpec A k lines = lines := by
  intro lines
  induction lines with
  | nil => intro k _; rfl
  | cons x tl ih =>
    intro k hclean
    have hc : ¬(k ∈ A ∧ hasDirective x = true) := by
      rintro ⟨_, h2⟩
      rw [hclean x (List.mem_cons_self x tl)] at h2
      exact Bool.false_ne_true h2
    rw [removeSpec, if_neg hc, ih (k + 1) (fun l hl => hclean l (List.mem_cons_of_mem x hl))]

/-- Python `replace` is the identity when the pattern does not occur. -/
theorem replaceAll_of_not_contains (pat rep : List Char) :
    ∀ s, containsSub pat s = false → replaceAll pat rep s = s := by
  intro s
  induction s with
  | nil =>
    intro _
    rw [replaceAll]
    split
    · rename_i hcond
      rcases hcond with ⟨hp, hne⟩
      cases hq : pat with
      | nil => exact absurd hq hne
      | cons a as => rw [hq] at hp; simp [List.isPrefixOf] at hp
    · rfl
  | cons c rest ih =>
    intro hns
    rw [containsSub] at hns
    have hsplit := Bool.or_eq_false_iff.mp hns
    rw [replaceAll]
    split
    · rename_i hcond
      rw [hcond.1] at hsplit
      exact absurd hsplit.1 (by simp)
    · show c :: replaceAll pat rep rest = c :: rest
      rw [ih hsplit.2]

/-- Entries of the removal log come from the accumulator or from the
anchor list being processed. -/
theorem anchorFixGo_removed_mem (e : String × Nat) :
    ∀ (l : List (String × Nat)) (fs : FsT) (acc : List (String × Nat)),
      e ∈ (anchorFixGo l fs acc).2 → e ∈ acc ∨ e ∈ l := by
  intro l
  induction l with
  | nil => intro fs acc h; exact Or.inl h
  | cons a rest ih =>
    intro fs acc h
    obtain ⟨file, lineno⟩ := a
    rw [anchorFixGo] at h
    cases hread : fsRead fs file with
    | none =>
      simp only [hread] at h
      rcases ih fs acc h with h1 | h1
      · exact Or.inl h1
      · exact Or.inr (List.mem_cons_of_mem _ h1)
    | some lines =>
      simp only [hread] at h
      by_cases hg : 1 ≤ lineno ∧ lineno - 1 < lines.length ∧
          hasDirective (lines.getD (lineno - 1) "") = true
      · rw [if_pos hg] at h
        rcases ih _ _ h with h1 | h1
        · rcases List.mem_append.mp h1 with h2 | h2
          · exact Or.inl h2
          · rcases List.mem_cons.mp h2 with h3 | h3
            · exact Or.inr (h3 ▸ List.mem_cons_self _ _)
            · cases h3
        · exact Or.inr (List.mem_cons_of_mem _ h1)
      · rw [if_neg hg] at h
        rcases ih fs acc h with h1 | h1
        · exact Or.inl h1
        · exact Or.inr (List.mem_cons_of_mem _ h1)

/-- Skip log of the 4B loop, restricted to reason `non-relative`: it is
exactly the non-relative hits of the prefix that the loop examines
before the cap break. -/
theorem importFixGo_skipped_nonrel (ex : List String → Bool) (ftext : String → String) :
    ∀ (hits : List (String × String)) (count : Nat), count ≤ 15 →
      List.filter (fun t => t.2.2 == "non-relative") (importFixGo ex ftext count hits).2.2 =
      List.map (fun p => (p.1, p.2, "non-relative"))
        (List.filter (fun p => !dotStart p.2) (scanUntilCap (15 - count) hits)) := by
  intro hits
  induction hits with
  | nil => intro count _; rfl
  | cons a rest ih =>
    intro count hcount
    obtain ⟨file, mod⟩ := a
    by_cases hd : dotStart mod = false
    · rw [importFixGo, if_pos hd]
      simp only [scanUntilCap]
      rw [if_pos hd]
      simp only [List.filter_cons]
      have hmk : ((file, mod, "non-relative").2.2 == "non-relative") = true := by rfl
      rw [hmk]
      have hkeep : (!dotStart (file, mod).2) = true := by
        simp only [hd, Bool.not_false]
      rw [hkeep]
      simp only [List.map_cons]
      rw [ih count hcount]
      simp
    · rw [importFixGo, if_neg hd]
      simp only [scanUntilCap]
      rw [if_neg hd]
      by_cases hc : count = 15
      · subst hc
        rw [if_pos (by omega)]
        have h0 : 15 - 15 = 0 := by omega
        rw [h0]
        rfl
      · have hlt : count < 15 := by omega
        rw [if_neg (by omega)]
        have hsucc : 15 - count = (15 - (count + 1)) + 1 := by omega
        rw [hsucc]
        have ihs := ih (count + 1) (by omega)
        cases hfind : List.find? (fun o => ex ((pparts file).dropLast ++ o))
            (probeOptions (pparts mod)) with
        | some o =>
          simp only [hfind]
          by_cases hne : applyRewrite mod.data
              (newMod (joinSlash o)).data (ftext file).data ≠ (ftext file).data
          · rw [if_pos hne]
            simp only [List.filter_cons]
            have ht : dotStart mod = true := by
              cases hv : dotStart mod with
              | false => exact absurd hv hd
              | true => rfl
            have hdrop : (!dotStart (file, mod).2) = false := by simp [ht]
            rw [hdrop]
            exact ihs
          · rw [if_neg hne]
            simp only [List.filter_cons]
            have ht : dotStart mod = true := by
              cases hv : dotStart mod with
              | false => exact absurd hv hd
              | true => rfl
            have hdrop : (!dotStart (file, mod).2) = false := by simp [ht]
            rw [hdrop]
            exact ihs
        | none =>
          simp only [hfind]
          simp only [List.filter_cons]
          have hmk : ((file, mod, "target-missing").2.2 == "non-relative") = false := by
            rfl
          rw [hmk]
          have ht : dotStart mod = true := by
            cases hv : dotStart mod with
            | false => exact absurd hv hd
            | true => rfl
          have hdrop : (!dotStart (file, mod).2) = false := by simp [ht]
          rw [hdrop]
          exact ihs

/-- When the forbidden alternation matches, at least one offending
pattern is logged. -/
theorem offendingPats_ne_nil (s : String) (h : findForbidden s = true) :
    offendingPats s ≠ [] := by
  intro h0
  rw [offendingPats] at h0
  obtain ⟨h1, h2⟩ := List.append_eq_nil.mp h0
  rw [List.filter_eq_nil_iff] at h1 h2
  have c1 := h1 "declare global" (by simp)
  have c2 := h1 "interface Window" (by simp)
  have c3 := h1 "namespace JSX" (by simp)
  have c4 := h1 "HTMLElement" (by simp)
  have c5 := h1 "React." (by simp)
  have c6 := h2 "document" (by simp)
  have c7 := h2 "window" (by simp)
  rw [findForbidden] at h
  rcases Bool.or_eq_true_iff.mp h with h | h7x
  on_goal 2 => exact c5 h7x
  rcases Bool.or_eq_true_iff.mp h with h | h6x
  on_goal 2 => exact c4 h6x
  rcases Bool.or_eq_true_iff.mp h with h | h5x
  on_goal 2 => exact c3 h5x
  rcases Bool.or_eq_true_iff.mp h with h | h4x
  on_goal 2 => exact c7 h4x
  rcases Bool.or_eq_true_iff.mp h with h | h3x
  on_goal 2 => exact c6 h3x
  rcases Bool.or_eq_true_iff.mp h with h | h2x
  on_goal 2 => exact c2 h2x
  exact c1 h

/-- Unfolding of the restartable fold of `lastImport` by one line. -/
theorem lastImpFrom_cons (n : Nat) (acc : Option Nat) (l : List Char) (ls : List (List Char)) :
    lastImpFrom n acc (l :: ls) =
      lastImpFrom (n + 1) (if isImportLine l then some n else acc) ls := by
  rfl

/-- Characterisation of the `last_imp` scan: either no line is an
import-style line and the accumulator survives, or the result indexes
the last such line. -/
theorem lastImpFrom_spec :
    ∀ (ls : List (List Char)) (n : Nat) (acc : Option Nat),
      (lastImpFrom n acc ls = acc ∧ ∀ l ∈ ls, isImportLine l = false) ∨
      (∃ j, ∃ hj : j < ls.length, lastImpFrom n acc ls = some (n + j) ∧
        isImportLine (ls.get ⟨j, hj⟩) = true ∧
        ∀ j', (hj' : j' < ls.length) → j < j' → isImportLine (ls.get ⟨j', hj'⟩) = false) := by
  intro ls
  induction ls with
  | nil =>
    intro n acc
    exact Or.inl ⟨rfl, fun l hl => absurd hl (List.not_mem_nil l)⟩
  | cons l tl ih =>
    intro n acc
    rw [lastImpFrom_cons]
    rcases ih (n + 1) (if isImportLine l then some n else acc) with ⟨heq, hnone⟩ | hsome
    · by_cases hl : isImportLine l = true
      · refine Or.inr ⟨0, by simp, ?_, ?_, ?_⟩
        · rw [heq, if_pos hl, Nat.add_zero]
        · exact hl
        · intro j' hj' hgt
          cases j' with
          | zero => omega
          | succ j'' =>
            have hj2 : j'' < tl.length := by
              simp only [List.length_cons] at hj'; omega
            exact hnone (tl.get ⟨j'', hj2⟩) (List.get_mem tl j'' hj2)
      · have hlf : isImportLine l = false := by
          cases hv : isImportLine l with
          | false => rfl
          | true => exact absurd hv hl
        refine Or.inl ⟨?_, ?_⟩
        · rw [heq, if_neg (by rw [hlf]; exact Bool.false_ne_true)]
        · intro x hx
          rcases List.mem_cons.mp hx with h | h
          · rw [h]; exact hlf
          · exact hnone x h
    · obtain ⟨j, hj, heq, himp, hmax⟩ := hsome
      refine Or.inr ⟨j + 1, by simp only [List.length_cons]; omega, ?_, ?_, ?_⟩
      · rw [heq]; congr 1; omega
      · exact himp
      · intro j' hj' hgt
        cases j' with
        | zero => omega
        | succ j'' =>
          have hj2 : j'' < tl.length := by
            simp only [List.length_cons] at hj'; omega
          exact hmax j'' hj2 (by omega)

/-- The keep-ends line split concatenates back to the original text. -/
theorem flatten_splitKE : ∀ s : List Char, List.flatten (splitKE s) = s := by
  intro s
  induction s with
  | nil => rfl
  | cons c rest ih =>
    rw [splitKE]
    by_cases hc : c = '\n'
    · rw [if_pos hc]
      simp only [List.flatten_cons]
      rw [ih, hc]
      rfl
    · rw [if_neg hc]
      cases hsp : splitKE rest with
      | nil =>
        rw [hsp] at ih
        simp only [List.flatten_nil] at ih
        simp only [List.flatten_cons, List.flatten_nil, List.append_nil]
        rw [← ih]
      | cons hd tlx =>
        rw [hsp] at ih
        simp only [List.flatten_cons] at ih ⊢
        rw [← ih]
        rfl

/-- Insertion within bounds splits the list around the inserted
element. -/
theorem insertIdx_split {α : Type} :
    ∀ (n : Nat) (l : List α), n ≤ l.length → ∀ a : α,
      List.insertIdx n a l = l.take n ++ a :: l.drop n := by
  intro n
  induction n with
  | zero => intro l _ a; simp
  | succ m ih =>
    intro l hle a
    cases l with
    | nil => simp at hle
    | cons h t =>
      simp only [List.insertIdx_succ_cons, List.take_succ_cons, List.drop_succ_cons,
        List.cons_append]
      rw [ih t (by simp only [List.length_cons] at hle; omega) a]

/-- C1 (code bug witness): the per-anchor loop of anchor_fix.py
processes same-file anchors in appearance order, re-reading the file
between removals.  For anchors at original lines 1 and 2 of a file
whose first two lines carry the directive, the run removes only the
content originally at line 1: after that removal the anchor for line 2
points at the shifted content `const x = 1`, the guard fails, and the
directive originally at line 2 survives — the removals are not
performed in strictly decreasing line-number order as the claim
requires (the byfile loop of remove_ts_expect.py does sort
descending). -/
theorem c1_appearance_order_misses_second_anchor :
    fsRead (anchorFix2578 [("src/a.ts", 1), ("src/a.ts", 2)]
        [("src/a.ts", ["// @ts-expect-error one", "// @ts-expect-error two", "const x = 1"])]).1
        "src/a.ts" =
      some ["// @ts-expect-error two", "const x = 1"] ∧
    fsRead (anchorFix2578 [("src/a.ts", 1), ("src/a.ts", 2)]
        [("src/a.ts", ["// @ts-expect-error one", "// @ts-expect-error two", "const x = 1"])]).1
        "src/a.ts" ≠
      some ["const x = 1"] := by
  decide

/-- C2 (counterexample): the suppression-removal pass is not idempotent
on all inputs.  With a single anchor at line 1 and two adjacent
directive lines, the first run removes line 1, the second directive
shifts into the anchored position, and the second run removes it too. -/
theorem c2_second_run_removes_again :
    removeByFile [1] (removeByFile [1]
        ["// @ts-expect-error one", "// @ts-expect-error two", "const x = 1"]) ≠
      removeByFile [1] ["// @ts-expect-error one", "// @ts-expect-error two", "const x = 1"] := by
  decide

/-- C2 (amended): the per-file pass of remove_ts_expect.py is idempotent
whenever every directive-bearing line of the file is targeted by an
anchor: the first run then removes every directive line, so the second
run's guard never matches and no line is removed. -/
theorem c2_removeByFile_idempotent_of_anchored (anchors : List Nat) (lines : List String)
    (H : ∀ i < lines.length, hasDirective (lines.getD i "") = true → (i + 1) ∈ anchors) :
    removeByFile anchors (removeByFile anchors lines) = removeByFile anchors lines := by
  have hX : removeByFile anchors lines = removeSpec anchors 1 lines :=
    removeByFile_eq_removeSpec anchors lines
  rw [hX, removeByFile_eq_removeSpec]
  apply removeSpec_id_of_clean
  intro l hl
  refine removeSpec_no_directive anchors lines 1 ?_ l hl
  intro i hi hd
  have hmem := H i hi hd
  rwa [Nat.add_comm 1 i]

/-- C2 (witness): a concrete file where both directive lines are
anchored; two runs agree. -/
theorem c2_removeByFile_idempotent_witness :
    removeByFile [1, 2] (removeByFile [1, 2]
        ["// @ts-expect-error one", "// @ts-expect-error two"]) =
      removeByFile [1, 2] ["// @ts-expect-error one", "// @ts-expect-error two"] :=
  c2_removeByFile_idempotent_of_anchored [1, 2]
    ["// @ts-expect-error one", "// @ts-expect-error two"] (by decide)

/-- C3 (counterexample): two diagnostics designating the same
`(file, line)` anchor are not deduplicated by the anchor_fix.py loop;
the duplicate re-reads the file, finds the shifted second directive at
the same index, and removes a second line, so the second occurrence
does cause an additional change. -/
theorem c3_duplicate_anchor_double_removal :
    (anchorFix2578 [("src/a.ts", 1), ("src/a.ts", 1)]
        [("src/a.ts", ["// @ts-expect-error one", "// @ts-expect-error two", "const x = 1"])]).1 ≠
      (anchorFix2578 [("src/a.ts", 1)]
        [("src/a.ts", ["// @ts-expect-error one", "// @ts-expect-error two", "const x = 1"])]).1 := by
  decide

/-- C3 (amended): the byfile pass of remove_ts_expect.py deduplicates
anchors (`sorted(set(lines))`), so duplicate anchors cause no
additional change there; and the specifier rewrite is a no-op on
content free of the old quoted specifier, so a duplicate
`(file, old-specifier)` pair causes no additional change once the first
application has eliminated every quoted occurrence.  (The per-anchor
suppression loop of anchor_fix.py lacks both protections, as the
counterexample shows.) -/
theorem c3_once_per_run_amended :
    (∀ (anchors : List Nat) (lines : List String),
        removeByFile anchors lines = removeByFile anchors.dedup lines) ∧
    (∀ (oldm newm txt : List Char), containsSub (quoteS oldm) txt = false →
        containsSub (quoteD oldm) txt = false → applyRewrite oldm newm txt = txt) := by
  constructor
  · intro anchors lines
    rw [removeByFile, removeByFile, sortDesc, sortDesc, List.dedup_idem]
  · intro o n t h1 h2
    rw [applyRewrite, replaceAll_of_not_contains _ _ t h1, replaceAll_of_not_contains _ _ t h2]

/-- C3 (witness): duplicates collapse for the byfile pass, and a rewrite
with no occurrence of the old specifier leaves the text unchanged. -/
theorem c3_once_per_run_witness :
    removeByFile [1, 1] ["// @ts-expect-error one"] =
      removeByFile ([1, 1]).dedup ["// @ts-expect-error one"] ∧
    applyRewrite "./util".data "./utils".data "const x = 1".data = "const x = 1".data :=
  ⟨c3_once_per_run_amended.1 [1, 1] ["// @ts-expect-error one"],
   c3_once_per_run_amended.2 "./util".data "./utils".data "const x = 1".data
     (by decide) (by decide)⟩

/-- C4 (counterexample): a non-relative specifier positioned after the
16th relative hit is never examined — the cap break (`count > 15`)
terminates the 4B loop before it is reached, so it is not recorded with
skip reason `non-relative` (nor at all). -/
theorem c4_non_relative_after_cap_not_recorded :
    dotStart "react" = false ∧
    ¬(("z.ts", "react", "non-relative") ∈
        (importFix (fun _ => false) (fun _ => "")
          [("f.ts", "./m1"), ("f.ts", "./m2"), ("f.ts", "./m3"), ("f.ts", "./m4"),
           ("f.ts", "./m5"), ("f.ts", "./m6"), ("f.ts", "./m7"), ("f.ts", "./m8"),
           ("f.ts", "./m9"), ("f.ts", "./m10"), ("f.ts", "./m11"), ("f.ts", "./m12"),
           ("f.ts", "./m13"), ("f.ts", "./m14"), ("f.ts", "./m15"), ("f.ts", "./m16"),
           ("z.ts", "react")]).2.2) := by
  decide

/-- C4 (amended): a parsed module-not-found diagnostic with a
non-relative specifier is skipped with reason `non-relative` exactly
when it appears before the cap break, i.e. before the 16th relative hit
of the run; diagnostics after the break — relative or not — are not
recorded at all.  The skip log restricted to reason `non-relative` is
precisely the non-relative part of the pre-break prefix, in order. -/
theorem c4_skipped_nonrel_characterisation (ex : List String → Bool)
    (ftext : String → String) (hits : List (String × String)) :
    List.filter (fun t => t.2.2 == "non-relative") (importFix ex ftext hits).2.2 =
      List.map (fun p => (p.1, p.2, "non-relative"))
        (List.filter (fun p => !dotStart p.2) (scanUntilCap 15 hits)) := by
  have h := importFixGo_skipped_nonrel ex ftext hits 0 (by omega)
  rw [importFix]
  convert h using 4

/-- C5: the import resolver probes the four candidates in exactly the
source order — specifier with suffix `.ts`, specifier with suffix
`.tsx`, directory index `.ts`, directory index `.tsx` — and the first
existing candidate wins.  Determinism is inherent: `resolveImport` is a
pure function of the directory listing `ex` and the candidate, so equal
inputs give equal results. -/
theorem c5_resolve_probe_order (ex : List String → Bool) (cand : List String) :
    resolveImport ex cand =
      (if ex (withSuffix cand ".ts") = true then some (withSuffix cand ".ts")
       else if ex (withSuffix cand ".tsx") = true then some (withSuffix cand ".tsx")
       else if ex (childPath cand "index.ts") = true then some (childPath cand "index.ts")
       else if ex (childPath cand "index.tsx") = true then some (childPath cand "index.tsx")
       else none) := by
  rw [resolveImport, probeOptions]
  by_cases h1 : ex (withSuffix cand ".ts") = true
  · rw [List.find?_cons_of_pos _ h1, if_pos h1]
  · rw [List.find?_cons_of_neg _ h1, if_neg h1]
    by_cases h2 : ex (withSuffix cand ".tsx") = true
    · rw [List.find?_cons_of_pos _ h2, if_pos h2]
    · rw [List.find?_cons_of_neg _ h2, if_neg h2]
      by_cases h3 : ex (childPath cand "index.ts") = true
      · rw [List.find?_cons_of_pos _ h3, if_pos h3]
      · rw [List.find?_cons_of_neg _ h3, if_neg h3]
        by_cases h4 : ex (childPath cand "index.tsx") = true
        · rw [List.find?_cons_of_pos _ h4, if_pos h4]
        · rw [List.find?_cons_of_neg _ h4, if_neg h4]
          rfl

/-- C6 (counterexample): the claim's single extension strip disagrees
with the code.  The specifier `./a.tsx.api` probes (via `with_suffix`)
the candidate `a.tsx.ts`; the source's sequential loop strips `.ts` and
then also `.tsx`, producing `./a`, while stripping one trailing
extension as the claim states produces `./a.tsx`. -/
theorem c6_double_strip_counterexample :
    withSuffix (pparts "./a.tsx.api") ".ts" = ["a.tsx.ts"] ∧
    newMod "a.tsx.ts" ≠ claimNewMod "a.tsx.ts" := by
  decide

/-- C6 (amended): the rewritten specifier is the candidate path
re-expressed relative to the importing directory with extensions
stripped sequentially — first a trailing `.ts`, then a trailing `.tsx`
on the result (so a name ending in `.tsx.ts` loses both) — then a
trailing `/index` segment removed, and `./` prepended when the result
does not already begin with `.`. -/
theorem c6_newMod_sequential_strip (rel : String) :
    newMod rel = addDotMark (stripIndexSeg (stripTsThenTsx (bsToSlash rel))) := by
  rfl

/-- C7: the three failure kinds of the pre-run gate carry mutually
distinct non-zero exit codes (1 for a missing output-directory
argument, 2 for forbidden shim content, 3 for a shim without a
top-level module declaration); in every aborting case the run never
reaches the checker/mutation stages, and for codes 2 and 3 the
offending excerpts are appended to the shim audit before the abort. -/
theorem c7_guard_exit_codes (argc : Nat) (shimExists : Bool) (s : String) :
    (argc < 2 → guardRun argc shimExists s =
      { exitCode := some 1, shimAudit := [], proceeds := false }) ∧
    (2 ≤ argc → shimExists = true → findForbidden s = true →
      guardRun argc shimExists s =
        { exitCode := some 2
          shimAudit := "ERROR: forbidden content in shim" :: offendingPats s
          proceeds := false } ∧
      offendingPats s ≠ []) ∧
    (2 ≤ argc → shimExists = true → findForbidden s = false → hasModuleDecl s = false →
      guardRun argc shimExists s =
        { exitCode := some 3
          shimAudit := ["ERROR: shim does not contain module declarations",
                        String.mk (s.data.take 200)]
          proceeds := false }) ∧
    ((1 : Nat) ≠ 2 ∧ (1 : Nat) ≠ 3 ∧ (2 : Nat) ≠ 3) := by
  refine ⟨?_, ?_, ?_, by omega, by omega, by omega⟩
  · intro h
    rw [guardRun, if_pos h]
  · intro ha hex hf
    refine ⟨?_, offendingPats_ne_nil s hf⟩
    rw [guardRun, if_neg (by omega), if_pos hex, if_pos hf]
  · intro ha hex hf hm
    rw [guardRun, if_neg (by omega), if_pos hex, if_neg (by rw [hf]; exact Bool.false_ne_true),
      if_pos hm]

/-- C7 (witness): the three abort kinds at concrete inputs. -/
theorem c7_guard_exit_codes_witness :
    guardRun 1 true "x" = { exitCode := some 1, shimAudit := [], proceeds := false } ∧
    (guardRun 2 true "declare global" =
      { exitCode := some 2
        shimAudit := "ERROR: forbidden content in shim" :: offendingPats "declare global"
        proceeds := false } ∧
     offendingPats "declare global" ≠ []) ∧
    guardRun 2 true "const x = 1" =
      { exitCode := some 3
        shimAudit := ["ERROR: shim does not contain module declarations",
                      String.mk ("const x = 1".data.take 200)]
        proceeds := false } :=
  ⟨(c7_guard_exit_codes 1 true "x").1 (by omega),
   (c7_guard_exit_codes 2 true "declare global").2.1 (by omega) rfl (by decide),
   (c7_guard_exit_codes 2 true "const x = 1").2.2.1 (by omega) rfl (by decide) (by decide)⟩

/-- C8: only the first 20 parsed suppression anchors, in appearance
order, are considered for mutation: the whole 4A pass — final file
system and removal log alike — coincides with the pass run on
`hits.take 20`, and every logged removal stems from that prefix, so an
anchor beyond the cap is never mutated. -/
theorem c8_cap_twenty (hits : List (String × Nat)) (fs : FsT) :
    anchorFix2578 hits fs = anchorFix2578 (hits.take 20) fs ∧
    ∀ e ∈ (anchorFix2578 hits fs).2, e ∈ hits.take 20 := by
  constructor
  · rw [anchorFix2578, anchorFix2578, List.take_take]
    norm_num
  · intro e he
    rcases anchorFixGo_removed_mem e (hits.take 20) fs [] he with h | h
    · cases h
    · exact h

/-- C8 (witness): a concrete run whose single anchor is removed; the
cap equation holds and the logged removal lies in the capped prefix. -/
theorem c8_cap_twenty_witness :
    anchorFix2578 [("src/a.ts", 1)] [("src/a.ts", ["// @ts-expect-error one"])] =
      anchorFix2578 ([("src/a.ts", 1)].take 20) [("src/a.ts", ["// @ts-expect-error one"])] ∧
    ("src/a.ts", 1) ∈ [("src/a.ts", 1)].take 20 :=
  ⟨(c8_cap_twenty [("src/a.ts", 1)] [("src/a.ts", ["// @ts-expect-error one"])]).1,
   (c8_cap_twenty [("src/a.ts", 1)] [("src/a.ts", ["// @ts-expect-error one"])]).2
     ("src/a.ts", 1) (by decide)⟩

/-- C10: when the declaration-shim file does not exist, the guard stage
is skipped entirely — no exit code, no shim audit entry — and the run
proceeds to the checker invocation and mutation stages, whatever the
(unread) shim text would have contained. -/
theorem c10_missing_shim_skips_guard (argc : Nat) (s : String) (h : 2 ≤ argc) :
    guardRun argc false s = { exitCode := none, shimAudit := [], proceeds := true } := by
  rw [guardRun, if_neg (by omega)]
  rfl

/-- C10 (witness): even a shim text full of forbidden content aborts
nothing when the shim file is absent. -/
theorem c10_missing_shim_skips_guard_witness :
    guardRun 2 false "declare global" =
      { exitCode := none, shimAudit := [], proceeds := true } :=
  c10_missing_shim_skips_guard 2 "declare global" (by omega)

/-- C9 (counterexample): the fix_tsx.py insertion does not place the
synthesized statement after the last import line: on a file that starts
with an import line it prepends the React import at the very top,
unlike the `ensure_import` placement the claim describes (which inserts
after the last import line among the first 80). -/
theorem c9_fixTsx_prepends_at_top :
    fixTsx "import x from \"./q\";\ncode\n" =
      "import React from \"react\";\nimport x from \"./q\";\ncode\n" ∧
    (fixTsx "import x from \"./q\";\ncode\n").data ≠
      ensureImport "import x from \"./q\";\ncode\n".data "import React from \"react\";".data := by
  decide

/-- C9 (amended): the `ensure_import` routine of mech_fix.py behaves as
the claim states: content already containing the exact statement text is
returned unchanged; otherwise the statement is inserted at the very top
when no line among the first 80 starts with `import `, and otherwise
immediately after the last such line.  (The fix_tsx.py prepend blocks,
by contrast, always insert at the very top, as the counterexample
shows.) -/
theorem c9_ensureImport_spec (txt imp : List Char) :
    (containsSub imp txt = true → ensureImport txt imp = txt) ∧
    (containsSub imp txt = false → lastImport (splitKE txt) = none →
      ensureImport txt imp = imp ++ '\n' :: txt ∧
      ∀ l ∈ (splitKE txt).take 80, isImportLine l = false) ∧
    (∀ k, containsSub imp txt = false → lastImport (splitKE txt) = some k →
      ∃ hk : k < (splitKE txt).length,
        ensureImport txt imp =
          List.flatten ((splitKE txt).take (k + 1)) ++ imp ++
            '\n' :: List.flatten ((splitKE txt).drop (k + 1)) ∧
        k < 80 ∧ isImportLine ((splitKE txt).get ⟨k, hk⟩) = true ∧
        ∀ j, (hj : j < (splitKE txt).length) → k < j → j < 80 →
          isImportLine ((splitKE txt).get ⟨j, hj⟩) = false) := by
  refine ⟨?_, ?_, ?_⟩
  · intro hc
    rw [ensureImport, if_pos hc]
  · intro hc hlast
    have hli : lastImport (splitKE txt) = lastImpFrom 0 none ((splitKE txt).take 80) := rfl
    rcases lastImpFrom_spec ((splitKE txt).take 80) 0 none with ⟨heq, hnone⟩ | hsome
    · refine ⟨?_, hnone⟩
      rw [ensureImport, if_neg (by rw [hc]; exact Bool.false_ne_true)]
      show List.flatten (List.insertIdx
        (match lastImport (splitKE txt) with | some k => k + 1 | none => 0)
        (imp ++ ['\n']) (splitKE txt)) = imp ++ '\n' :: txt
      rw [hlast]
      show List.flatten (List.insertIdx 0 (imp ++ ['\n']) (splitKE txt)) = imp ++ '\n' :: txt
      rw [List.insertIdx_zero, List.flatten_cons, flatten_splitKE, List.append_assoc,
        List.singleton_append]
    · obtain ⟨j, hj, heq, _, _⟩ := hsome
      rw [hli, heq] at hlast
      cases hlast
  · intro k hc hlast
    have hli : lastImport (splitKE txt) = lastImpFrom 0 none ((splitKE txt).take 80) := rfl
    rcases lastImpFrom_spec ((splitKE txt).take 80) 0 none with ⟨heq, _⟩ | hsome
    · rw [hli, heq] at hlast
      cases hlast
    · obtain ⟨j, hj, heq, himp, hmax⟩ := hsome
      rw [hli, heq] at hlast
      have hkj : k = j := by
        have := Option.some.inj hlast
        omega
      subst hkj
      rw [Nat.zero_add] at heq
      have hjlen := hj
      rw [List.length_take] at hjlen
      have hkb := lt_min_iff.mp hjlen
      refine ⟨hkb.2, ?_, hkb.1, ?_, ?_⟩
      · rw [ensureImport, if_neg (by rw [hc]; exact Bool.false_ne_true)]
        show List.flatten (List.insertIdx
          (match lastImport (splitKE txt) with | some k => k + 1 | none => 0)
          (imp ++ ['\n']) (splitKE txt)) = _
        rw [hli, heq]
        show List.flatten (List.insertIdx (k + 1) (imp ++ ['\n']) (splitKE txt)) = _
        rw [insertIdx_split (k + 1) (splitKE txt) (by omega) (imp ++ ['\n'])]
        rw [List.flatten_append, List.flatten_cons, List.append_assoc, List.append_assoc,
          List.singleton_append]
      · have h2 := himp
        simp only [List.get_eq_getElem] at h2 ⊢
        rwa [List.getElem_take] at h2
      · intro j2 hj2 hgt hlt80
        have hj2t : j2 < ((splitKE txt).take 80).length := by
          rw [List.length_take]
          exact lt_min_iff.mpr ⟨hlt80, hj2⟩
        have h3 := hmax j2 hj2t hgt
        simp only [List.get_eq_getElem] at h3 ⊢
        rwa [List.getElem_take] at h3

/-- C9 (witness): concrete insertion after the single import line of a
two-line file. -/
theorem c9_ensureImport_spec_witness :
    ensureImport "import a;\nb\n".data "import z;".data =
      List.flatten ((splitKE "import a;\nb\n".data).take 1) ++ "import z;".data ++
        '\n' :: List.flatten ((splitKE "import a;\nb\n".data).drop 1) := by
  obtain ⟨hk, heq, h80, himp, hmax⟩ :=
    (c9_ensureImport_spec "import a;\nb\n".data "import z;".data).2.2 0 (by decide) (by decide)
  exact heq
